import Mathlib

/-!
# Verification of the gwf backend core

Shallow embedding of the gwf workflow orchestrator's backend layer:

* `Backend.schedule` / `Backend.schedule_many` (src/gwf/backends/base.py),
* `Backend.__init__` option validation (src/gwf/backends/base.py),
* the SGE plugin `SGEOps` (src/src/gwf/backends/sge.py).

Targets are identified by their unique name; the dependency graph is a
function from a target to its list of direct dependencies.  The tracked
submission state of the backend (which targets currently have a live job
record) is an explicit list; `submit` registers the target in that state.
The staleness oracle `should_run` is an explicit boolean-valued function.
-/

namespace Gwf

variable {α : Type} [DecidableEq α]

/-- Modelled from the spec: the depth-first traversal helper `dfs` from
`gwf.utils` is imported by `src/gwf/backends/base.py` but its module is not
part of the sources; the spec describes it as "a depth-first traversal of
its transitive dependency set (post-order: a dependency is considered
before the targets that need it, matching a standard topological walk)",
with the requested target itself included as the final case.  `dfsList`
runs a node-visiting function over a list of nodes left to right, threading
the visited set and concatenating the post-order outputs; a `none` result
(out of fuel) aborts the traversal. -/
def dfsList (f : List α → α → Option (List α × List α)) :
    List α → List α → Option (List α × List α)
  | visited, [] => some (visited, [])
  | visited, d :: ds =>
    match f visited d with
    | none => none
    | some (v, out₁) =>
      match dfsList f v ds with
      | none => none
      | some (w, out₂) => some (w, out₁ ++ out₂)

/-- Modelled from the spec: one node of the post-order depth-first walk.
A node already in the visited set is skipped; otherwise it is marked
visited, its direct dependencies are traversed recursively, and the node
itself is appended after them (post-order).  `fuel` bounds the recursion
depth; on an acyclic graph any fuel larger than the longest dependency
chain suffices, and running out of fuel yields `none`. -/
def dfsNode (deps : α → List α) : Nat → List α → α → Option (List α × List α)
  | 0, _, _ => none
  | fuel + 1, visited, u =>
    if u ∈ visited then some (visited, [])
    else
      match dfsList (dfsNode deps fuel) (u :: visited) (deps u) with
      | none => none
      | some (v, out) => some (v, out ++ [u])

/-- Modelled from the spec: `dfs(root, dependencies)` — the post-order list
of the transitive dependency set of `root`, with `root` itself last. -/
def dfs (deps : α → List α) (fuel : Nat) (root : α) : Option (List α) :=
  match dfsNode deps fuel [] root with
  | none => none
  | some (_, out) => some out

/-- The body of the `for dependency in dfs(...)` loop of `Backend.schedule`
(src/gwf/backends/base.py, lines 121–146), with the backend's tracked
submission state made explicit.  `state` is the set (as a list) of targets
for which `submitted` is true; `submit` registers the target in the state
(per the spec, `submit` "has the side effect of registering a JobRecord").
For each visited dependency, in order: if it is already submitted it is
skipped; else if `should_run` reports it need not run it is skipped; else
it is submitted and appended to the list of newly scheduled targets.
Returns the final state and the list of newly scheduled targets; a target
is appended to that list exactly when `submit` is called on it. -/
def scheduleLoop (should_run : α → Bool) : List α → List α → List α × List α
  | [], state => (state, [])
  | d :: rest, state =>
    if d ∈ state then scheduleLoop should_run rest state
    else if !(should_run d) then scheduleLoop should_run rest state
    else
      let r := scheduleLoop should_run rest (d :: state)
      (r.1, d :: r.2)

/-- Embedding of `Backend.schedule` (src/gwf/backends/base.py, lines 109–147): if the
requested target is already submitted, return the empty list immediately;
otherwise walk `dfs(target, dependencies)` with the skip/submit loop.
Returns the updated tracked state together with the list of newly
scheduled targets (`none` only when the traversal runs out of fuel). -/
def schedule (deps : α → List α) (should_run : α → Bool) (fuel : Nat)
    (state : List α) (target : α) : Option (List α × List α) :=
  if target ∈ state then some (state, [])
  else
    match dfs deps fuel target with
    | none => none
    | some order => some (scheduleLoop should_run order state)

/-! ## Structural lemmas about the traversal -/

theorem dfsList_mono {f : List α → α → Option (List α × List α)}
    (hf : ∀ vis d v out, f vis d = some (v, out) → vis ⊆ v) :
    ∀ (l visited : List α) {v out}, dfsList f visited l = some (v, out) → visited ⊆ v := by
  intro l
  induction l with
  | nil =>
    intro visited v out h
    simp only [dfsList, Option.some.injEq, Prod.mk.injEq] at h
    exact h.1 ▸ List.Subset.refl _
  | cons d ds ih =>
    intro visited v out h
    cases h₁ : f visited d with
    | none => simp [dfsList, h₁] at h
    | some p =>
      obtain ⟨pv, pout⟩ := p
      cases h₂ : dfsList f pv ds with
      | none => simp [dfsList, h₁, h₂] at h
      | some q =>
        obtain ⟨qv, qout⟩ := q
        simp only [dfsList, h₁, h₂, Option.some.injEq, Prod.mk.injEq] at h
        obtain ⟨rfl, rfl⟩ := h
        exact List.Subset.trans (hf _ _ _ _ h₁) (ih pv h₂)

theorem dfsNode_mono (deps : α → List α) :
    ∀ (fuel : Nat) (visited : List α) (u : α) {v out},
      dfsNode deps fuel visited u = some (v, out) → visited ⊆ v := by
  intro fuel
  induction fuel with
  | zero => intro visited u v out h; simp [dfsNode] at h
  | succ fuel ih =>
    intro visited u v out h
    by_cases hu : u ∈ visited
    · simp only [dfsNode, hu, if_true, Option.some.injEq, Prod.mk.injEq] at h
      exact h.1 ▸ List.Subset.refl _
    · cases h₁ : dfsList (dfsNode deps fuel) (u :: visited) (deps u) with
      | none => simp [dfsNode, hu, h₁] at h
      | some p =>
        obtain ⟨pv, pout⟩ := p
        simp only [dfsNode, hu, if_false, h₁, Option.some.injEq, Prod.mk.injEq] at h
        obtain ⟨rfl, rfl⟩ := h
        have hsub : (u :: visited) ⊆ pv :=
          dfsList_mono (fun vis d v' out' hc => ih vis d hc) _ _ h₁
        exact fun x hx => hsub (List.mem_cons_of_mem _ hx)

theorem dfsList_out_not_visited {f : List α → α → Option (List α × List α)}
    (hm : ∀ vis d v out, f vis d = some (v, out) → vis ⊆ v)
    (ho : ∀ vis d v out, f vis d = some (v, out) → ∀ x ∈ out, x ∉ vis) :
    ∀ (l visited : List α) {v out}, dfsList f visited l = some (v, out) →
      ∀ x ∈ out, x ∉ visited := by
  intro l
  induction l with
  | nil =>
    intro visited v out h
    simp only [dfsList, Option.some.injEq, Prod.mk.injEq] at h
    simp [← h.2]
  | cons d ds ih =>
    intro visited v out h x hx
    cases h₁ : f visited d with
    | none => simp [dfsList, h₁] at h
    | some p =>
      obtain ⟨pv, pout⟩ := p
      cases h₂ : dfsList f pv ds with
      | none => simp [dfsList, h₁, h₂] at h
      | some q =>
        obtain ⟨qv, qout⟩ := q
        simp only [dfsList, h₁, h₂, Option.some.injEq, Prod.mk.injEq] at h
        obtain ⟨rfl, rfl⟩ := h
        rcases List.mem_append.1 hx with h₃ | h₃
        · exact ho _ _ _ _ h₁ x h₃
        · intro hxv
          exact ih pv h₂ x h₃ (hm _ _ _ _ h₁ hxv)

theorem dfsNode_out_not_visited (deps : α → List α) :
    ∀ (fuel : Nat) (visited : List α) (u : α) {v out},
      dfsNode deps fuel visited u = some (v, out) → ∀ x ∈ out, x ∉ visited := by
  intro fuel
  induction fuel with
  | zero => intro visited u v out h; simp [dfsNode] at h
  | succ fuel ih =>
    intro visited u v out h x hx
    by_cases hu : u ∈ visited
    · simp only [dfsNode, hu, if_true, Option.some.injEq, Prod.mk.injEq] at h
      rw [← h.2] at hx
      simp at hx
    · cases h₁ : dfsList (dfsNode deps fuel) (u :: visited) (deps u) with
      | none => simp [dfsNode, hu, h₁] at h
      | some p =>
        obtain ⟨pv, pout⟩ := p
        simp only [dfsNode, hu, if_false, h₁, Option.some.injEq, Prod.mk.injEq] at h
        obtain ⟨rfl, rfl⟩ := h
        rcases List.mem_append.1 hx with h₃ | h₃
        · have := dfsList_out_not_visited
            (fun vis d v' out' hc => dfsNode_mono deps fuel vis d hc)
            (fun vis d v' out' hc => ih vis d hc) _ _ h₁ x h₃
          exact fun hxv => this (List.mem_cons_of_mem _ hxv)
        · simp only [List.mem_singleton] at h₃
          exact h₃ ▸ hu

/-- The requested root is the last element of the post-order list and does
not occur earlier in it. -/
theorem dfs_root_last {deps : α → List α} {fuel : Nat} {root : α} {out : List α}
    (h : dfs deps fuel root = some out) :
    ∃ l, out = l ++ [root] ∧ root ∉ l := by
  unfold dfs at h
  cases hn : dfsNode deps fuel [] root with
  | none => rw [hn] at h; simp at h
  | some p =>
    obtain ⟨pv, pout⟩ := p
    rw [hn] at h
    simp only [Option.some.injEq] at h
    subst h
    cases fuel with
    | zero => simp [dfsNode] at hn
    | succ fuel =>
      cases h₁ : dfsList (dfsNode deps fuel) [root] (deps root) with
      | none => simp [dfsNode, h₁] at hn
      | some q =>
        obtain ⟨qv, qout⟩ := q
        simp only [dfsNode, List.not_mem_nil, if_false, h₁, Option.some.injEq,
          Prod.mk.injEq] at hn
        refine ⟨qout, by rw [← hn.2], ?_⟩
        intro hroot
        have := dfsList_out_not_visited
          (fun vis d v' out' hc => dfsNode_mono deps fuel vis d hc)
          (fun vis d v' out' hc => dfsNode_out_not_visited deps fuel vis d hc)
          _ _ h₁ root hroot
        simp at this

/-! ## Lemmas about the submission loop -/

theorem scheduleLoop_state_mono (should_run : α → Bool) :
    ∀ (l state : List α), state ⊆ (scheduleLoop should_run l state).1 := by
  intro l
  induction l with
  | nil => intro state; simp [scheduleLoop]
  | cons d rest ih =>
    intro state
    by_cases hd : d ∈ state
    · simpa only [scheduleLoop, hd, if_true] using ih state
    · by_cases hr : should_run d
      · simp only [scheduleLoop, hd, if_false, hr, Bool.not_true]
        exact fun x hx => ih (d :: state) (List.mem_cons_of_mem _ hx)
      · simp only [Bool.not_eq_true] at hr
        simpa only [scheduleLoop, hd, if_false, hr, Bool.not_false, if_true] using ih state

theorem scheduleLoop_saturates (should_run : α → Bool) :
    ∀ (l state : List α) (x : α), x ∈ l →
      x ∈ (scheduleLoop should_run l state).1 ∨ should_run x = false := by
  intro l
  induction l with
  | nil => intro state x hx; simp at hx
  | cons d rest ih =>
    intro state x hx
    rcases List.mem_cons.1 hx with rfl | hx'
    · by_cases hd : x ∈ state
      · exact Or.inl (scheduleLoop_state_mono should_run _ state hd)
      · by_cases hr : should_run x
        · simp only [scheduleLoop, hd, if_false, hr, Bool.not_true]
          exact Or.inl (scheduleLoop_state_mono should_run rest (x :: state)
            (List.mem_cons_self _ _))
        · exact Or.inr (by simpa using hr)
    · by_cases hd : d ∈ state
      · simpa only [scheduleLoop, hd, if_true] using ih state x hx'
      · by_cases hr : should_run d
        · simp only [scheduleLoop, hd, if_false, hr, Bool.not_true]
          exact ih (d :: state) x hx'
        · simp only [Bool.not_eq_true] at hr
          simpa only [scheduleLoop, hd, if_false, hr, Bool.not_false, if_true]
            using ih state x hx'

theorem scheduleLoop_stable (should_run : α → Bool) :
    ∀ (l state : List α), (∀ x ∈ l, x ∈ state ∨ should_run x = false) →
      scheduleLoop should_run l state = (state, []) := by
  intro l
  induction l with
  | nil => intro state _; simp [scheduleLoop]
  | cons d rest ih =>
    intro state hall
    by_cases hd : d ∈ state
    · simp only [scheduleLoop, hd, if_true]
      exact ih state (fun x hx => hall x (List.mem_cons_of_mem _ hx))
    · rcases hall d (List.mem_cons_self _ _) with h | h
      · exact absurd h hd
      · simp only [scheduleLoop, hd, if_false, h, Bool.not_false, if_true]
        exact ih state (fun x hx => hall x (List.mem_cons_of_mem _ hx))

theorem scheduleLoop_sublist (should_run : α → Bool) :
    ∀ (l state : List α), List.Sublist (scheduleLoop should_run l state).2 l := by
  intro l
  induction l with
  | nil => intro state; simp [scheduleLoop]
  | cons d rest ih =>
    intro state
    by_cases hd : d ∈ state
    · simp only [scheduleLoop, hd, if_true]
      exact (ih state).cons d
    · by_cases hr : should_run d
      · simp only [scheduleLoop, hd, if_false, hr, Bool.not_true]
        exact (ih (d :: state)).cons₂ d
      · simp only [Bool.not_eq_true] at hr
        simp only [scheduleLoop, hd, if_false, hr, Bool.not_false, if_true]
        exact (ih state).cons d

theorem scheduleLoop_stale_skip (should_run : α → Bool) {D : α}
    (hD : should_run D = false) :
    ∀ (l state : List α), D ∉ state →
      D ∉ (scheduleLoop should_run l state).2 ∧ D ∉ (scheduleLoop should_run l state).1 := by
  intro l
  induction l with
  | nil => intro state hns; simpa [scheduleLoop] using hns
  | cons d rest ih =>
    intro state hns
    by_cases hd : d ∈ state
    · simpa only [scheduleLoop, hd, if_true] using ih state hns
    · by_cases hr : should_run d
      · simp only [scheduleLoop, hd, if_false, hr, Bool.not_true]
        have hne : D ≠ d := fun h => by rw [h, hr] at hD; exact absurd hD (by simp)
        have hns' : D ∉ d :: state := by
          simp only [List.mem_cons, not_or]
          exact ⟨hne, hns⟩
        have hrec := ih (d :: state) hns'
        refine ⟨?_, hrec.2⟩
        show D ∉ d :: (scheduleLoop should_run rest (d :: state)).2
        simp only [List.mem_cons, not_or]
        exact ⟨hne, hrec.1⟩
      · simp only [Bool.not_eq_true] at hr
        simpa only [scheduleLoop, hd, if_false, hr, Bool.not_false, if_true]
          using ih state hns

/-- A sublist of `l ++ [a]` that contains `a`, where `a ∉ l`, has `a` as its
unique last element. -/
theorem sublist_last_split {a : α} :
    ∀ (l s : List α), List.Sublist s (l ++ [a]) → a ∉ l → a ∈ s →
      ∃ s₁, s = s₁ ++ [a] ∧ s₁ ⊆ l := by
  intro l
  induction l with
  | nil =>
    intro s hs _ ha
    rcases List.sublist_singleton.1 hs with rfl | rfl
    · simp at ha
    · exact ⟨[], by simp⟩
  | cons b l ih =>
    intro s hs hal ha
    have hab : a ≠ b := fun h => hal (h ▸ List.mem_cons_self _ _)
    have hal' : a ∉ l := fun h => hal (List.mem_cons_of_mem _ h)
    cases hs with
    | cons _ hs' =>
      exact (ih s hs' hal' ha).imp
        (fun s₁ hp => ⟨hp.1, fun x hx => List.mem_cons_of_mem _ (hp.2 hx)⟩)
    | cons₂ _ hs' =>
      obtain ⟨s₁, hs₁, hsub⟩ := ih _ hs' hal' (by
        rcases List.mem_cons.1 ha with h | h
        · exact absurd h hab
        · exact h)
      refine ⟨b :: s₁, by simp [hs₁], fun x hx => ?_⟩
      rcases List.mem_cons.1 hx with rfl | hx'
      · exact List.mem_cons_self _ _
      · exact List.mem_cons_of_mem _ (hsub hx')

/-! ## Claim theorems about `Backend.schedule` -/

/-- C1: for every target, calling `schedule` twice in succession with no
external state change (the second call starts from the tracked-submission
state left by the first, with the same `should_run` oracle) returns an
empty list of newly scheduled targets on the second call and issues no
submit calls (the returned state is unchanged, and a target is submitted
exactly when it is appended to the returned list). -/
theorem schedule_idempotent (deps : α → List α) (should_run : α → Bool)
    (fuel : Nat) (state s₁ out : List α) (target : α)
    (h : schedule deps should_run fuel state target = some (s₁, out)) :
    schedule deps should_run fuel s₁ target = some (s₁, []) := by
  unfold schedule at h ⊢
  by_cases ht : target ∈ state
  · simp only [ht, if_true, Option.some.injEq, Prod.mk.injEq] at h
    simp [← h.1, ht]
  · rw [if_neg ht] at h
    cases hdfs : dfs deps fuel target with
    | none => rw [hdfs] at h; simp at h
    | some order =>
      rw [hdfs] at h
      simp only [Option.some.injEq] at h
      by_cases ht₁ : target ∈ s₁
      · simp [ht₁]
      · rw [if_neg ht₁]
        have hsat : ∀ x ∈ order, x ∈ s₁ ∨ should_run x = false := by
          intro x hx
          rcases scheduleLoop_saturates should_run order state x hx with hmem | hfalse
          · rw [h] at hmem
            exact Or.inl hmem
          · exact Or.inr hfalse
        show some (scheduleLoop should_run order s₁) = some (s₁, [])
        rw [scheduleLoop_stable should_run order s₁ hsat]

/-- C1 witness: a two-node chain 2 → 1, everything stale; the first call
schedules [1, 2]; re-running from the resulting state yields no new
submissions. -/
theorem schedule_idempotent_witness :
    schedule (fun n => if n = 2 then [1] else []) (fun _ => true) 3 [] (2 : Nat)
        = some ([2, 1], [1, 2]) ∧
    schedule (fun n => if n = 2 then [1] else []) (fun _ => true) 3 [2, 1] (2 : Nat)
        = some ([2, 1], []) :=
  ⟨by decide,
    schedule_idempotent (fun n => if n = 2 then [1] else []) (fun _ => true) 3
      [] [2, 1] [1, 2] 2 (by decide)⟩

/-- C2: for an edge target → dependency in the dependency graph, if one
`schedule` call submits both, the dependency is submitted strictly before
the requested target: the returned list of newly scheduled targets splits
as `l ++ [T]` with the dependency in `l` and `T` not in `l` (the post-order
walk emits the requested root last, and the loop preserves that order).
The hypothesis `D ≠ T` reflects the spec's acyclicity invariant (a
self-edge would be a cycle). -/
theorem schedule_dependency_before_dependent (deps : α → List α)
    (should_run : α → Bool) (fuel : Nat) (state : List α) (T D : α)
    (s' sched : List α) (hedge : D ∈ deps T) (hDT : D ≠ T)
    (h : schedule deps should_run fuel state T = some (s', sched))
    (hT : T ∈ sched) (hD : D ∈ sched) :
    ∃ l, sched = l ++ [T] ∧ D ∈ l ∧ T ∉ l := by
  unfold schedule at h
  by_cases ht : T ∈ state
  · simp only [ht, if_true, Option.some.injEq, Prod.mk.injEq] at h
    rw [← h.2] at hT
    simp at hT
  · rw [if_neg ht] at h
    cases hdfs : dfs deps fuel T with
    | none => rw [hdfs] at h; simp at h
    | some order =>
      rw [hdfs] at h
      simp only [Option.some.injEq] at h
      obtain ⟨l₀, horder, hroot⟩ := dfs_root_last hdfs
      have hsub : List.Sublist sched (l₀ ++ [T]) := by
        have := scheduleLoop_sublist should_run order state
        rw [h, horder] at this
        exact this
      obtain ⟨s₁, hs₁, hsubset⟩ := sublist_last_split l₀ sched hsub hroot hT
      refine ⟨s₁, hs₁, ?_, fun hTs₁ => hroot (hsubset hTs₁)⟩
      rw [hs₁] at hD
      rcases List.mem_append.1 hD with hDl | hDl
      · exact hDl
      · simp only [List.mem_singleton] at hDl
        exact absurd hDl hDT

/-- C2 witness: chain 2 → 1; one call submits both and the returned list
is [1, 2] — the dependency strictly before the requested target. -/
theorem schedule_dependency_before_dependent_witness :
    ∃ l, ([1, 2] : List Nat) = l ++ [2] ∧ 1 ∈ l ∧ 2 ∉ l :=
  schedule_dependency_before_dependent (fun n => if n = 2 then [1] else [])
    (fun _ => true) 3 [] 2 1 [2, 1] [1, 2]
    (by decide) (by decide) (by decide) (by decide) (by decide)

/-- C3: a target that is not yet submitted and that the `should_run` oracle
reports as up to date is never submitted by `schedule`: it does not appear
in the returned list of newly scheduled targets (the list of submit calls)
and is absent from the resulting tracked state. -/
theorem schedule_staleness_skip (deps : α → List α) (should_run : α → Bool)
    (fuel : Nat) (state : List α) (target D : α) (s' sched : List α)
    (hD : should_run D = false) (hns : D ∉ state)
    (h : schedule deps should_run fuel state target = some (s', sched)) :
    D ∉ sched ∧ D ∉ s' := by
  unfold schedule at h
  by_cases ht : target ∈ state
  · simp only [ht, if_true, Option.some.injEq, Prod.mk.injEq] at h
    constructor
    · rw [← h.2]; simp
    · rw [← h.1]; exact hns
  · rw [if_neg ht] at h
    cases hdfs : dfs deps fuel target with
    | none => rw [hdfs] at h; simp at h
    | some order =>
      rw [hdfs] at h
      simp only [Option.some.injEq] at h
      have := scheduleLoop_stale_skip should_run hD order state hns
      rw [h] at this
      exact ⟨this.1, this.2⟩

/-- C3 witness: chain 2 → 1 where target 1 is up to date; scheduling 2
submits only 2, and 1 is neither in the returned list nor in the state. -/
theorem schedule_staleness_skip_witness :
    (fun n => if n = (1 : Nat) then false else true) 1 = false ∧
    (1 : Nat) ∉ ([2] : List Nat) ∧ (1 : Nat) ∉ ([2] : List Nat) :=
  ⟨by decide,
    (schedule_staleness_skip (fun n => if n = 2 then [1] else [])
      (fun n => if n = 1 then false else true) 3 [] 2 1 [2] [2]
      (by decide) (by decide) (by decide)).imp id id⟩

/-- C8: if the requested top-level target is already submitted, `schedule`
returns the empty list immediately without walking the dependency graph:
the tracked state is unchanged, so no dependency is submitted in that call
even if it is unsubmitted and stale. -/
theorem schedule_submitted_root (deps : α → List α) (should_run : α → Bool)
    (fuel : Nat) (state : List α) (target : α) (h : target ∈ state) :
    schedule deps should_run fuel state target = some (state, []) := by
  simp [schedule, h]

/-- C8 witness: target 2 is tracked while its stale dependency 1 is not;
`schedule 2` returns the empty list and leaves the state unchanged — even
with zero traversal fuel, since the dependency walk is never entered. -/
theorem schedule_submitted_root_witness :
    (2 : Nat) ∈ ([2] : List Nat) ∧
    schedule (fun n => if n = 2 then [1] else []) (fun _ => true) 0 [2] (2 : Nat)
      = some ([2], []) :=
  ⟨by decide,
    schedule_submitted_root (fun n => if n = 2 then [1] else []) (fun _ => true) 0
      [2] 2 (by decide)⟩

/-! ## Data model shared by the backend layer and the SGE plugin -/

/-- Modelled from the spec: the job lifecycle states as seen from the
orchestrator ("BackendStatus — enumeration: UNKNOWN, SUBMITTED, RUNNING");
the enum itself is imported by src/src/gwf/backends/sge.py from a module
that is not part of the sources. -/
inductive BackendStatus where
  | UNKNOWN : BackendStatus
  | SUBMITTED : BackendStatus
  | RUNNING : BackendStatus
deriving DecidableEq, Repr

/-- A value stored under an option name in a target's options mapping:
either a Python `int` (e.g. `cores`) or a `str` (e.g. `memory`). -/
inductive OptValue where
  | int : Int → OptValue
  | str : String → OptValue
deriving DecidableEq, Repr

/-- Rendering `str(value)`: how an option value renders when interpolated into a
directive line. -/
def OptValue.toStr : OptValue → String
  | .int n => toString n
  | .str s => s

/-- Modelled from the spec: the `Target` data entity ("identity: unique
name. Attributes: working directory, resource `options` (mapping of
option-name → value ...), a `spec` (the literal script/command body to
run)"); the class itself lives outside the sources.  The options mapping
is an association list in insertion order. -/
structure Target where
  name : String
  working_dir : String
  spec : String
  options : List (String × OptValue)

/-! ## `Backend.__init__` option validation (src/gwf/backends/base.py) -/

/-- The option names appearing on any target of the workflow, in order of
appearance (the source collects them into a set). -/
def allOptionNames : List Target → List String
  | [] => []
  | t :: ts => t.options.map Prod.fst ++ allOptionNames ts

/-- Embedding of `Backend.__init__` (src/gwf/backends/base.py, lines 20–39): collects
the set of option names used by any target of the bound workflow and, for
each name not in `supported_options`, emits a non-fatal warning.  The
result is the list of warned option names; the function is total — an
unsupported option never raises. -/
def backend_init_warned (targets : List Target) (supported : List String) :
    List String :=
  (allOptionNames targets).dedup.filter (fun n => !(supported.contains n))

/-! ## The SGE plugin (src/src/gwf/backends/sge.py) -/

/-- The table `OPTION_FLAGS` (src/src/gwf/backends/sge.py, lines 50–56). -/
def OPTION_FLAGS : List (String × String) :=
  [("cores", "-pe smp "),
   ("memory", "-l h_vmem="),
   ("walltime", "-l h_rt="),
   ("queue", "-q "),
   ("account", "-P ")]

/-- Embedding of `re.sub` with pattern `[^0-9]+` and empty replacement: the digit
characters of `s`, in order. -/
def digitsOnly (s : String) : String :=
  ⟨s.data.filter Char.isDigit⟩

/-- Python `int(s)` on a string expected to hold a nonnegative decimal
numeral: the parsed number, or `none` (`ValueError`) when `s` is empty or
holds a non-digit character. -/
def parseNat (s : String) : Option Nat :=
  if s.data.isEmpty || !(s.data.all Char.isDigit) then none
  else some (s.data.foldl (fun acc c => 10 * acc + (c.toNat - 48)) 0)

/-- Python's `c in s` for a single-character needle: some character of `s`
equals `c`. -/
def strContains (s : String) (c : Char) : Bool :=
  s.data.contains c

/-- Embedding of `re.sub` with pattern `[0-9]+` and empty replacement: `s` with
its digit characters removed. -/
def stripDigits (s : String) : String :=
  ⟨s.data.filter (fun c => !c.isDigit)⟩

/-- Modelled from the spec: `ensure_trailing_newline` from `gwf.utils` is
imported by src/src/gwf/backends/sge.py but its module is not part of the
sources; the spec requires "the literal target body with a guaranteed
trailing newline". -/
def ensure_trailing_newline (s : String) : String :=
  if s.data.getLast? = some '\n' then s else s ++ "\n"

/-- One iteration of the option loop of `SGEOps.compile_script`
(src/src/gwf/backends/sge.py, lines 110–117): renders one
`(option_name, option_value)` item as a `#$ <flag><value>` directive line.
For the `memory` option the value is first converted from total to
per-core memory: the digits of the memory string are parsed as an integer,
divided by the `cores` option with Python's floor division `//`, and glued
back onto the non-digit unit suffix.  `none` models the exceptions the
Python loop can raise: an option name missing from `OPTION_FLAGS`
(`KeyError`), a memory value that is not a string or has no digits
(`TypeError`/`ValueError`), a missing or non-integer `cores` option
(`KeyError`/`TypeError`), or `cores = 0` (`ZeroDivisionError`). -/
def formatOption (opts : List (String × OptValue)) (p : String × OptValue) :
    Option String :=
  match OPTION_FLAGS.lookup p.1 with
  | none => none
  | some flag =>
    if p.1 = "memory" then
      match p.2 with
      | .str m =>
        match parseNat (digitsOnly m) with
        | none => none
        | some number =>
          match opts.lookup "cores" with
          | some (.int cores) =>
            if cores = 0 then none
            else some ("#$ " ++ flag ++ toString (Int.fdiv number cores) ++ stripDigits m)
          | _ => none
      | .int _ => none
    else some ("#$ " ++ flag ++ p.2.toStr)

/-- The option loop of `SGEOps.compile_script`: renders each options item
in order, aborting (exception) if any item fails. -/
def optionLines (opts : List (String × OptValue)) :
    List (String × OptValue) → Option (List String)
  | [] => some []
  | p :: rest =>
    match formatOption opts p, optionLines opts rest with
    | some line, some lines => some (line :: lines)
    | _, _ => none

/-- Embedding of `SGEOps.compile_script` (src/src/gwf/backends/sge.py, lines 98–139) as
the list `out` of script lines it builds; the returned script is
`"\n".join(out)` (see `compile_script`).  `os.path.join` is modelled as
concatenation with `/` separators. -/
def compile_script_lines (working_dir : String) (t : Target) :
    Option (List String) :=
  match optionLines t.options t.options with
  | none => none
  | some opt =>
    some (["#!/bin/bash",
           "# Generated by: gwf",
           "#$ -N " ++ t.name,
           "#$ -V",
           "#$ -w v",
           "#$ -cwd"]
      ++ opt
      ++ ["#$ -o " ++ working_dir ++ "/.gwf/logs/" ++ t.name ++ ".stdout",
          "#$ -e " ++ working_dir ++ "/.gwf/logs/" ++ t.name ++ ".stderr",
          "",
          "cd " ++ t.working_dir,
          "export GWF_JOBID=$SGE_JOBID",
          "export GWF_TARGET_NAME=\"" ++ t.name ++ "\"",
          "set -e",
          "",
          ensure_trailing_newline t.spec])

/-- The compiled submission script: the joined line list. -/
def compile_script (working_dir : String) (t : Target) : Option String :=
  (compile_script_lines working_dir t).map (String.intercalate "\n")

/-- Embedding of `SGEOps.submit_target` (src/src/gwf/backends/sge.py, lines 70–76),
modelled as the description of the external call it issues: the argument
list passed to `qsub` together with the script fed on stdin.  The argument
list starts with `-terse`; if the dependency list is non-empty (Python
truthiness) `-hold_jid` and the comma-joined dependency job handles are
appended.  `none` models a script-compilation exception. -/
def submit_target (working_dir : String) (t : Target)
    (dependencies : List String) : Option (List String × String) :=
  match compile_script working_dir t with
  | none => none
  | some script =>
    some ((if dependencies.isEmpty then ["-terse"]
           else ["-terse", "-hold_jid", String.intercalate "," dependencies]),
          script)

/-- The state-classification heuristic inside `SGEOps.get_job_states`
(src/src/gwf/backends/sge.py, lines 87–94): a state code containing `d` or
`E` is `UNKNOWN`; otherwise one containing `r`, `t` or `s` is `RUNNING`;
otherwise `SUBMITTED`. -/
def classify_state (state : String) : BackendStatus :=
  if strContains state 'd' || strContains state 'E' then BackendStatus.UNKNOWN
  else if strContains state 'r' || strContains state 't' || strContains state 's' then
    BackendStatus.RUNNING
  else BackendStatus.SUBMITTED

/-- One `job_states[job_id] = job_state` dictionary assignment in the
`get_job_states` loop, as a pointwise update of the lookup function. -/
def dictSet (acc : String → Option BackendStatus) (p : String × String) :
    String → Option BackendStatus :=
  fun k => if k = p.1 then some (classify_state p.2) else acc k

/-- Embedding of `SGEOps.get_job_states` (src/src/gwf/backends/sge.py, lines 78–96).
`listing` is the scheduler's bulk status listing as parsed from
`qstat -f -xml`: the `(JB_job_number, state)` pairs of its `job_list`
elements, in document order.  The built `job_states` dict is modelled as a
lookup function, each `job_states[job_id] = ...` assignment as a pointwise
update (so a duplicated job id keeps the last state, as in a dict).  The
`tracked_jobs` parameter is accepted and ignored, exactly as in the
source. -/
def get_job_states (tracked_jobs : List String)
    (listing : List (String × String)) : String → Option BackendStatus :=
  listing.foldl dictSet (fun _ => none)

/-! ## Lemmas about the SGE embedding -/

theorem optionLines_mem (opts : List (String × OptValue)) :
    ∀ (all : List (String × OptValue)) (ls : List String)
      (p : String × OptValue) (line : String),
      optionLines opts all = some ls → p ∈ all →
      formatOption opts p = some line → line ∈ ls := by
  intro all
  induction all with
  | nil => intro ls p line h hp _; simp at hp
  | cons q rest ih =>
    intro ls p line h hp hf
    cases h₁ : formatOption opts q with
    | none => simp [optionLines, h₁] at h
    | some l₁ =>
      cases h₂ : optionLines opts rest with
      | none => simp [optionLines, h₁, h₂] at h
      | some ls₂ =>
        simp only [optionLines, h₁, h₂, Option.some.injEq] at h
        subst h
        rcases List.mem_cons.1 hp with rfl | hp'
        · rw [h₁] at hf
          simp only [Option.some.injEq] at hf
          exact hf ▸ List.mem_cons_self _ _
        · exact List.mem_cons_of_mem _ (ih ls₂ p line h₂ hp' hf)

/-- If the options mapping holds `memory = m` (a string with digits) and
an integer `cores = c ≠ 0`, the compiled script contains the per-core
memory directive `#$ -l h_vmem=<n // c><unit>`. -/
theorem memory_line_mem (wd : String) (t : Target) (lines : List String)
    (m : String) (c : Int) (n : Nat)
    (hmem : ("memory", OptValue.str m) ∈ t.options)
    (hcores : t.options.lookup "cores" = some (OptValue.int c))
    (hn : parseNat (digitsOnly m) = some n)
    (hc : c ≠ 0)
    (h : compile_script_lines wd t = some lines) :
    ("#$ -l h_vmem=" ++ toString (Int.fdiv n c) ++ stripDigits m) ∈ lines := by
  unfold compile_script_lines at h
  cases ho : optionLines t.options t.options with
  | none => rw [ho] at h; simp at h
  | some opt =>
    rw [ho] at h
    simp only [Option.some.injEq] at h
    subst h
    have hfmt : formatOption t.options ("memory", OptValue.str m)
        = some ("#$ -l h_vmem=" ++ toString (Int.fdiv n c) ++ stripDigits m) := by
      simp only [formatOption]
      rw [show OPTION_FLAGS.lookup "memory" = some "-l h_vmem=" from by decide]
      simp only [hn, hcores, reduceIte, if_neg hc]
      rfl
    have hline := optionLines_mem t.options t.options opt _ _ ho hmem hfmt
    exact List.mem_append.2 (Or.inl (List.mem_append.2 (Or.inr hline)))

theorem foldl_dictSet_some :
    ∀ (l : List (String × String)) (acc : String → Option BackendStatus)
      (k : String) (v : BackendStatus),
      (l.foldl dictSet acc) k = some v →
      (∃ st, (k, st) ∈ l ∧ v = classify_state st) ∨ acc k = some v := by
  intro l
  induction l with
  | nil => intro acc k v h; exact Or.inr h
  | cons p rest ih =>
    intro acc k v h
    rw [List.foldl_cons] at h
    rcases ih (dictSet acc p) k v h with ⟨st, hst, hv⟩ | hacc
    · exact Or.inl ⟨st, List.mem_cons_of_mem _ hst, hv⟩
    · unfold dictSet at hacc
      by_cases hk : k = p.1
      · rw [if_pos hk] at hacc
        simp only [Option.some.injEq] at hacc
        exact Or.inl ⟨p.2, by rw [hk]; exact List.mem_cons_self _ _, hacc.symm⟩
      · rw [if_neg hk] at hacc
        exact Or.inr hacc

theorem foldl_dictSet_absent :
    ∀ (l : List (String × String)) (acc : String → Option BackendStatus)
      (k : String), (∀ st, (k, st) ∉ l) → (l.foldl dictSet acc) k = acc k := by
  intro l
  induction l with
  | nil => intro acc k _; rfl
  | cons p rest ih =>
    intro acc k hk
    rw [List.foldl_cons,
      ih (dictSet acc p) k (fun st hst => hk st (List.mem_cons_of_mem _ hst))]
    unfold dictSet
    rw [if_neg (fun h => hk p.2 (by rw [h]; exact List.mem_cons_self _ _))]

theorem foldl_dictSet_mem :
    ∀ (l : List (String × String)) (acc : String → Option BackendStatus)
      (k st : String), (k, st) ∈ l → ∃ v, (l.foldl dictSet acc) k = some v := by
  intro l
  induction l with
  | nil => intro acc k st h; simp at h
  | cons p rest ih =>
    intro acc k st h
    rw [List.foldl_cons]
    rcases List.mem_cons.1 h with heq | hrest
    · by_cases hex : ∃ st', (k, st') ∈ rest
      · obtain ⟨st', hst'⟩ := hex
        exact ih (dictSet acc p) k st' hst'
      · push_neg at hex
        rw [foldl_dictSet_absent rest (dictSet acc p) k hex]
        unfold dictSet
        have hk : k = p.1 := by rw [← heq]
        rw [if_pos hk]
        exact ⟨_, rfl⟩
    · exact ih (dictSet acc p) k st hrest

theorem allOptionNames_mem (name : String) :
    ∀ (targets : List Target), name ∈ allOptionNames targets ↔
      ∃ t, t ∈ targets ∧ ∃ v, (name, v) ∈ t.options := by
  intro targets
  induction targets with
  | nil => simp [allOptionNames]
  | cons t ts ih =>
    simp only [allOptionNames, List.mem_append, ih, List.mem_map, List.mem_cons]
    constructor
    · rintro (⟨⟨nm, v⟩, hp, hname⟩ | ⟨u, hu, v, hv⟩)
      · exact ⟨t, Or.inl rfl, v, hname ▸ hp⟩
      · exact ⟨u, Or.inr hu, v, hv⟩
    · rintro ⟨u, rfl | hu, v, hv⟩
      · exact Or.inl ⟨(name, v), hv, rfl⟩
      · exact Or.inr ⟨u, hu, v, hv⟩

/-! ## Sample targets used by the witnesses -/

/-- A concrete target with `cores=4` and total memory `8g`. -/
def sampleTarget : Target :=
  ⟨"align", "/data", "echo align",
    [("cores", OptValue.int 4), ("memory", OptValue.str "8g")]⟩

/-- A concrete target with `cores=2` and total memory `1g`. -/
def smallTarget : Target :=
  ⟨"map", "/data", "echo map",
    [("cores", OptValue.int 2), ("memory", OptValue.str "1g")]⟩

/-! ## Claim theorems about the backend construction and the SGE plugin -/

/-- C5: constructing a backend over a workflow whose targets carry option
keys that are not in the supported-options set never fails:
`backend_init_warned` is a total function, and an option name is warned
about exactly when it occurs on some target of the workflow and is not
supported.  The warning is the only effect — scheduling (`schedule`) does
not consult the supported-options set at all. -/
theorem backend_unsupported_option_tolerated (targets : List Target)
    (supported : List String) (name : String) :
    name ∈ backend_init_warned targets supported ↔
      ((∃ t, t ∈ targets ∧ ∃ v, (name, v) ∈ t.options) ∧ name ∉ supported) := by
  unfold backend_init_warned
  rw [List.mem_filter, List.mem_dedup, allOptionNames_mem]
  simp

/-- C5 witness: a workflow with one target carrying the `memory` option,
bound to a backend supporting only `cores`, warns about `memory` (and
raises nothing — the construction is a total function). -/
theorem backend_unsupported_option_tolerated_witness :
    "memory" ∈ backend_init_warned [sampleTarget] ["cores"] :=
  (backend_unsupported_option_tolerated [sampleTarget] ["cores"] "memory").mpr
    ⟨⟨sampleTarget, List.mem_cons_self _ _, OptValue.str "8g", by decide⟩, by decide⟩

/-- C4: a target whose options carry `cores=4` and `memory="8g"` compiles
to a script containing the per-core memory directive `#$ -l h_vmem=2g`:
the plugin divides the total memory amount by the core count before
emitting the `h_vmem` flag. -/
theorem sge_memory_per_core_conversion (wd : String) (t : Target)
    (lines : List String)
    (hmem : ("memory", OptValue.str "8g") ∈ t.options)
    (hcores : t.options.lookup "cores" = some (OptValue.int 4))
    (h : compile_script_lines wd t = some lines) :
    "#$ -l h_vmem=2g" ∈ lines :=
  memory_line_mem wd t lines "8g" 4 8 hmem hcores (by decide) (by decide) h

set_option maxRecDepth 20000 in
/-- C4 witness: the sample target (`cores=4`, `memory="8g"`) compiled at a
concrete working directory contains the `#$ -l h_vmem=2g` line. -/
theorem sge_memory_per_core_conversion_witness :
    ("memory", OptValue.str "8g") ∈ sampleTarget.options ∧
    "#$ -l h_vmem=2g" ∈ (compile_script_lines "/proj" sampleTarget).getD [] :=
  ⟨by decide,
    sge_memory_per_core_conversion "/proj" sampleTarget
      ((compile_script_lines "/proj" sampleTarget).getD [])
      (by decide) (by decide) rfl⟩

/-- C9: the per-core memory value emitted by `compile_script` is the
integer floor division (`Int.fdiv`, Python's `//`) of the numeric part of
the memory option by the cores option, discarding any remainder, glued to
the non-digit unit suffix. -/
theorem sge_memory_floor_division (wd : String) (t : Target)
    (lines : List String) (m : String) (c : Int) (n : Nat)
    (hmem : ("memory", OptValue.str m) ∈ t.options)
    (hcores : t.options.lookup "cores" = some (OptValue.int c))
    (hn : parseNat (digitsOnly m) = some n)
    (hc : c ≠ 0)
    (h : compile_script_lines wd t = some lines) :
    ("#$ -l h_vmem=" ++ toString (Int.fdiv n c) ++ stripDigits m) ∈ lines :=
  memory_line_mem wd t lines m c n hmem hcores hn hc h

set_option maxRecDepth 20000 in
/-- C9 witness: with `memory="1g"` and `cores=2` the remainder is
discarded — `1 // 2 = 0` — and the emitted directive is
`#$ -l h_vmem=0g`. -/
theorem sge_memory_floor_division_witness :
    Int.fdiv 1 2 = 0 ∧
    "#$ -l h_vmem=0g" ∈ (compile_script_lines "/proj" smallTarget).getD [] :=
  ⟨by decide,
    sge_memory_floor_division "/proj" smallTarget
      ((compile_script_lines "/proj" smallTarget).getD []) "1g" 2 1
      (by decide) (by decide) (by decide) (by decide) rfl⟩

/-- C7: `submit_target` passes a `-hold_jid` directive whose argument is
the comma-joined dependency job handles exactly when the dependency list
is non-empty; with no dependencies the only argument is `-terse`. -/
theorem sge_submit_hold_directive (wd : String) (t : Target)
    (dependencies : List String) (args : List String) (script : String)
    (h : submit_target wd t dependencies = some (args, script)) :
    (dependencies = [] → args = ["-terse"]) ∧
    (dependencies ≠ [] →
      args = ["-terse", "-hold_jid", String.intercalate "," dependencies]) := by
  unfold submit_target at h
  cases hcs : compile_script wd t with
  | none => rw [hcs] at h; simp at h
  | some script' =>
    rw [hcs] at h
    simp only [Option.some.injEq, Prod.mk.injEq] at h
    constructor
    · intro hdep
      rw [← h.1, hdep]
      simp
    · intro hdep
      rw [← h.1, if_neg (by simpa using hdep)]

set_option maxRecDepth 20000 in
/-- C7 witness: submitting the sample target with two pending dependency
jobs passes `-hold_jid` followed by the comma-joined handles. -/
theorem sge_submit_hold_directive_witness :
    (["4321", "4322"] : List String) ≠ [] ∧
    (["-terse", "-hold_jid", "4321,4322"] : List String)
      = ["-terse", "-hold_jid", String.intercalate "," ["4321", "4322"]] :=
  ⟨by decide,
    (sge_submit_hold_directive "/proj" sampleTarget ["4321", "4322"]
      ["-terse", "-hold_jid", "4321,4322"]
      ((compile_script "/proj" sampleTarget).getD "") rfl).2 (by decide)⟩

/-- C6: `get_job_states` classifies every job id in the scheduler listing
into exactly one status by the state-code rule — a state containing `d` or
`E` is `UNKNOWN`; otherwise one containing `r`, `t` or `s` is `RUNNING`;
otherwise `SUBMITTED` — every listed job id is present in the returned
mapping with a status obtained by that rule from a state listed for it,
and a job id not present in the listing is absent from the returned
mapping (`none`) rather than mapped to `UNKNOWN`. -/
theorem sge_job_state_classification (tracked : List String)
    (listing : List (String × String)) :
    (∀ st, (strContains st 'd' || strContains st 'E') = true →
        classify_state st = BackendStatus.UNKNOWN) ∧
    (∀ st, (strContains st 'd' || strContains st 'E') = false →
        (strContains st 'r' || strContains st 't' || strContains st 's') = true →
        classify_state st = BackendStatus.RUNNING) ∧
    (∀ st, (strContains st 'd' || strContains st 'E') = false →
        (strContains st 'r' || strContains st 't' || strContains st 's') = false →
        classify_state st = BackendStatus.SUBMITTED) ∧
    (∀ k st, (k, st) ∈ listing → ∃ v, get_job_states tracked listing k = some v) ∧
    (∀ k v, get_job_states tracked listing k = some v →
        ∃ st, (k, st) ∈ listing ∧ v = classify_state st) ∧
    (∀ k, (∀ st, (k, st) ∉ listing) → get_job_states tracked listing k = none) := by
  refine ⟨?_, ?_, ?_, ?_, ?_, ?_⟩
  · intro st h
    simp [classify_state, h]
  · intro st h1 h2
    simp [classify_state, h1, h2]
  · intro st h1 h2
    simp [classify_state, h1, h2]
  · intro k st h
    exact foldl_dictSet_mem listing (fun _ => none) k st h
  · intro k v h
    rcases foldl_dictSet_some listing (fun _ => none) k v h with ⟨st, hst, hv⟩ | habs
    · exact ⟨st, hst, hv⟩
    · simp at habs
  · intro k hk
    exact foldl_dictSet_absent listing (fun _ => none) k hk

/-- C6 witness: in a listing with jobs `101` (state `qw`) and `102`
(state `dr`), the listed job `102` is present in the returned mapping. -/
theorem sge_job_state_classification_witness :
    ∃ v, get_job_states [] [("101", "qw"), ("102", "dr")] "102" = some v :=
  (sge_job_state_classification [] [("101", "qw"), ("102", "dr")]).2.2.2.1
    "102" "dr" (by decide)

/-- C10: the result of `get_job_states` does not depend on its
`tracked_jobs` argument — for any two values the returned mapping is the
same function — and it contains every job id present in the listing, not
only the tracked ones. -/
theorem sge_job_states_ignore_tracked (tracked₁ tracked₂ : List String)
    (listing : List (String × String)) :
    get_job_states tracked₁ listing = get_job_states tracked₂ listing ∧
    (∀ k st, (k, st) ∈ listing → ∃ v, get_job_states tracked₁ listing k = some v) :=
  ⟨rfl, fun k st h => foldl_dictSet_mem listing (fun _ => none) k st h⟩

/-- C10 witness: two different tracked-jobs arguments (neither containing
job `5`) give identical mappings, and the untracked listed job `5` is
present in the result. -/
theorem sge_job_states_ignore_tracked_witness :
    get_job_states ["7"] [("5", "r")] = get_job_states ["8", "9"] [("5", "r")] ∧
    ∃ v, get_job_states ["7"] [("5", "r")] "5" = some v :=
  ⟨(sge_job_states_ignore_tracked ["7"] ["8", "9"] [("5", "r")]).1,
    (sge_job_states_ignore_tracked ["7"] ["8", "9"] [("5", "r")]).2 "5" "r"
      (by decide)⟩

end Gwf
